import Mathlib

/-!
Verification of the FIFO PnL engine of this repository
(`src/fifo.py` and `src/new.py`, function `calculate_fifo_pnl`).

The two source files share the same matching loop; `src/new.py` adds the
end-of-month (EOM) valuation pass.  We embed the core shallowly:

* prices and quantities are rationals (the Python code uses floats, but every
  claim is about the exact arithmetic of the algorithm);
* the Python `defaultdict(list)` books become insertion-ordered association
  lists from contract name to lot list, mirroring dict key creation: a key is
  only inserted when the Python code actually touches `positions[contract]`
  (i.e. when a matching loop ran at least once, or when a remainder is pushed);
* the two `while` loops become structural recursions over the lot queue
  (`matchLoop`, instantiated as `coverLoop` and `sellLoop`);
* the free-text `Remaining` column of a history row is presentation-only and
  not part of the model;
* the NaN-row skip (`pd.isna`) is input validation external to the core: a
  `Trade` here is an already well-formed record.
-/

namespace FifoPnl

/-- A lot is a `(price, quantity)` pair, as in the Python tuples. -/
abbrev Lot : Type := ℚ × ℚ

/-- A book maps contract names to lot queues, in dict insertion order,
mirroring `defaultdict(list)`. -/
abbrev Book : Type := List (String × List Lot)

/-- An input trade row: contract, price, signed quantity. -/
structure Trade where
  contract : String
  price : ℚ
  quantity : ℚ
deriving DecidableEq

/-- The `Type` column of a trade-history row. -/
inductive EventType
  | BUY
  | SELL
  | SHORT
  | COVER
deriving DecidableEq

/-- A trade-history row (the `Remaining` free-text column is omitted). -/
structure Event where
  type : EventType
  contract : String
  price : ℚ
  quantity : ℚ
  pnl : ℚ
deriving DecidableEq

/-- Dict lookup defaulting to the empty lot list: `positions.get(contract)`
is truthy exactly when `getLots` is a non-empty list. -/
def getLots : Book → String → List Lot
  | [], _ => []
  | (c', l) :: rest, c => if c' = c then l else getLots rest c

/-- Dict write: replace the entry in place when the key exists, else append
the new key at the end (Python dict insertion order). -/
def setLots : Book → String → List Lot → Book
  | [], c, l => [(c, l)]
  | (c', l') :: rest, c, l =>
      if c' = c then (c, l) :: rest else (c', l') :: setLots rest c l

/-- Result of one matching `while` loop: the leftover trade quantity, the
surviving opposing queue, the realized-PnL increment, and the emitted events
in order. -/
structure LoopResult where
  remaining : ℚ
  queue : List Lot
  pnl : ℚ
  events : List Event
deriving DecidableEq

/-- The shared shape of the two matching `while` loops of
`calculate_fifo_pnl`: while the trade has remaining quantity and the opposing
queue is non-empty, match against the front lot; a front lot with quantity at
most the remainder is popped, otherwise it is reduced in place.  `etype` is
the emitted event type and `pnlOf lotPrice matched` the realized PnL of one
match. -/
def matchLoop (etype : EventType) (pnlOf : ℚ → ℚ → ℚ) (c : String)
    (price : ℚ) : ℚ → List Lot → LoopResult
  | remaining, [] => ⟨remaining, [], 0, []⟩
  | remaining, (lp, lq) :: rest =>
      if remaining ≤ 0 then ⟨remaining, (lp, lq) :: rest, 0, []⟩
      else if lq ≤ remaining then
        let lotPnl := pnlOf lp lq
        let r := matchLoop etype pnlOf c price (remaining - lq) rest
        ⟨r.remaining, r.queue, lotPnl + r.pnl,
          ⟨etype, c, price, lq, lotPnl⟩ :: r.events⟩
      else
        let lotPnl := pnlOf lp remaining
        ⟨0, (lp, lq - remaining) :: rest, lotPnl,
          [⟨etype, c, price, remaining, lotPnl⟩]⟩

/-- The buy-side loop covering short lots: realized PnL of a match of `m`
units against a short lot entered at `sp` is `(sp - price) * m`. -/
def coverLoop (c : String) (price : ℚ) : ℚ → List Lot → LoopResult :=
  matchLoop EventType.COVER (fun sp m => (sp - price) * m) c price

/-- The sell-side loop closing long lots: realized PnL of a match of `m`
units against a long lot entered at `bp` is `(price - bp) * m`. -/
def sellLoop (c : String) (price : ℚ) : ℚ → List Lot → LoopResult :=
  matchLoop EventType.SELL (fun bp m => (price - bp) * m) c price

/-- Result of processing a single trade. -/
structure StepResult where
  positions : Book
  shorts : Book
  pnl : ℚ
  events : List Event
deriving DecidableEq

/-- One iteration of the trade loop of `calculate_fifo_pnl`.  A positive
quantity is a buy: it first covers short lots FIFO, then any remainder opens a
long lot (BUY event, PnL 0).  Otherwise the trade is handled by the sell
branch: it closes long lots FIFO, then any remainder opens a short lot (SHORT
event, PnL 0).  A book entry is only written when the Python code touches the
corresponding dict key: the opposing queue is written exactly when the loop
body ran at least once, and the same-side queue exactly when a remainder is
appended. -/
def stepTrade (positions shorts : Book) (t : Trade) : StepResult :=
  if 0 < t.quantity then
    let q0 := getLots shorts t.contract
    let r := coverLoop t.contract t.price t.quantity q0
    let shorts' := if 0 < t.quantity ∧ q0 ≠ [] then
        setLots shorts t.contract r.queue else shorts
    if 0 < r.remaining then
      { positions := setLots positions t.contract
          (getLots positions t.contract ++ [(t.price, r.remaining)]),
        shorts := shorts',
        pnl := r.pnl,
        events := r.events ++ [⟨EventType.BUY, t.contract, t.price, r.remaining, 0⟩] }
    else
      { positions := positions, shorts := shorts', pnl := r.pnl, events := r.events }
  else
    let sellQty := -t.quantity
    let q0 := getLots positions t.contract
    let r := sellLoop t.contract t.price sellQty q0
    let positions' := if 0 < sellQty ∧ q0 ≠ [] then
        setLots positions t.contract r.queue else positions
    if 0 < r.remaining then
      { positions := positions',
        shorts := setLots shorts t.contract
          (getLots shorts t.contract ++ [(t.price, r.remaining)]),
        pnl := r.pnl,
        events := r.events ++ [⟨EventType.SHORT, t.contract, t.price, r.remaining, 0⟩] }
    else
      { positions := positions', shorts := shorts, pnl := r.pnl, events := r.events }

/-- The engine state threaded through the trade loop. -/
structure EngineState where
  positions : Book
  shorts : Book
  realized : ℚ
  history : List Event
deriving DecidableEq

/-- Empty books, zero realized PnL, empty history. -/
def initState : EngineState := ⟨[], [], 0, []⟩

/-- Process one trade: apply `stepTrade` to the books, accumulate realized
PnL, append the emitted events to the history. -/
def processTrade (st : EngineState) (t : Trade) : EngineState :=
  let r := stepTrade st.positions st.shorts t
  ⟨r.positions, r.shorts, st.realized + r.pnl, st.history ++ r.events⟩

/-- The whole matching pass of `calculate_fifo_pnl` over an ordered trade
stream, from the empty state. -/
def processTrades (ts : List Trade) : EngineState :=
  ts.foldl processTrade initState

/-- Total open quantity of a lot queue. -/
def lotsTotal (lots : List Lot) : ℚ := (lots.map Prod.snd).sum

/-! The valuation pass of `src/new.py` (lines 145-189).  `eom_prices` may be
`None` or a dict; `eom_price = eom_prices.get(contract) if eom_prices else
None` yields `None` both for a missing argument and for a missing key, which
is exactly `priceLookup` on an association list (an absent mapping is the
empty list).  The row fields mirror the Python dict keys. -/

/-- Lookup in the EOM price mapping, `None` when absent. -/
def priceLookup : List (String × ℚ) → String → Option ℚ
  | [], _ => none
  | (c', p) :: rest, c => if c' = c then some p else priceLookup rest c

/-- Python truthiness of the looked-up EOM price: `None` and `0` are falsy. -/
def truthyPrice : Option ℚ → Bool
  | none => false
  | some m => decide (m ≠ 0)

/-- One remaining-position snapshot row. -/
structure SnapshotRow where
  side : String
  contract : String
  price : ℚ
  quantity : ℚ
  costBasis : ℚ
  eomPrice : Option ℚ
  marketValue : Option ℚ
  unrealized : ℚ
deriving DecidableEq

/-- Snapshot row for a surviving long lot: `market_value = eom_price *
quantity if eom_price else None`, `unrealized = (eom_price - price) *
quantity if eom_price else 0`. -/
def longRow (eomP : Option ℚ) (c : String) (p q : ℚ) : SnapshotRow :=
  ⟨"LONG", c, p, q, p * q, eomP,
    if truthyPrice eomP then some (eomP.getD 0 * q) else none,
    if truthyPrice eomP then (eomP.getD 0 - p) * q else 0⟩

/-- Snapshot row for a surviving short lot: the unrealized-PnL sign is
mirrored, `unrealized = (price - eom_price) * quantity if eom_price else 0`. -/
def shortRow (eomP : Option ℚ) (c : String) (p q : ℚ) : SnapshotRow :=
  ⟨"SHORT", c, p, q, p * q, eomP,
    if truthyPrice eomP then some (eomP.getD 0 * q) else none,
    if truthyPrice eomP then (p - eomP.getD 0) * q else 0⟩

/-- The first valuation loop: iterate the long book in insertion order,
emit a row per surviving lot with positive quantity, and accumulate its
unrealized PnL. -/
def longValue (eom : List (String × ℚ)) : Book → ℚ × List SnapshotRow
  | [] => (0, [])
  | (c, lots) :: rest =>
      let rows := (lots.filter fun l => decide (0 < l.2)).map
        fun l => longRow (priceLookup eom c) c l.1 l.2
      let r := longValue eom rest
      ((rows.map SnapshotRow.unrealized).sum + r.1, rows ++ r.2)

/-- The second valuation loop, over the short book. -/
def shortValue (eom : List (String × ℚ)) : Book → ℚ × List SnapshotRow
  | [] => (0, [])
  | (c, lots) :: rest =>
      let rows := (lots.filter fun l => decide (0 < l.2)).map
        fun l => shortRow (priceLookup eom c) c l.1 l.2
      let r := shortValue eom rest
      ((rows.map SnapshotRow.unrealized).sum + r.1, rows ++ r.2)

/-- The full valuation pass: unrealized-PnL total and the snapshot rows,
long book first, then short book. -/
def valuation (positions shorts : Book) (eom : List (String × ℚ)) :
    ℚ × List SnapshotRow :=
  let l := longValue eom positions
  let s := shortValue eom shorts
  (l.1 + s.1, l.2 ++ s.2)

/-- Whether a history row closes existing inventory (SELL or COVER). -/
def isClose (e : Event) : Bool :=
  decide (e.type = EventType.SELL) || decide (e.type = EventType.COVER)

/-- Whether a history row opens new inventory (BUY or SHORT). -/
def isOpen (e : Event) : Bool :=
  decide (e.type = EventType.BUY) || decide (e.type = EventType.SHORT)

/-- The trade sequence of the spec's worked scenario (contract `X`). -/
def demoTrades : List Trade :=
  [⟨"X", 100, 10⟩, ⟨"X", 105, -4⟩, ⟨"X", 98, -10⟩]

/-! Basic lemmas about book access. -/

theorem getLots_setLots (b : Book) (c c' : String) (l : List Lot) :
    getLots (setLots b c l) c' = if c = c' then l else getLots b c' := by
  induction b with
  | nil => by_cases h : c = c' <;> simp [setLots, getLots, h]
  | cons hd tl ih =>
      obtain ⟨ck, cl⟩ := hd
      by_cases h1 : ck = c
      · subst h1
        by_cases h2 : ck = c' <;> simp [setLots, getLots, h2]
      · by_cases h2 : ck = c'
        · subst h2
          have hne : ¬ c = ck := fun h => h1 h.symm
          simp [setLots, getLots, h1, hne]
        · simp [setLots, getLots, h1, h2, ih]

/-! Lemmas about the matching loop. -/

theorem matchLoop_events_qty_sum (e : EventType) (f : ℚ → ℚ → ℚ)
    (c : String) (p : ℚ) (r : ℚ) (q : List Lot) :
    ((matchLoop e f c p r q).events.map Event.quantity).sum =
      r - (matchLoop e f c p r q).remaining := by
  induction q generalizing r with
  | nil => simp [matchLoop]
  | cons lot rest ih =>
      obtain ⟨lp, lq⟩ := lot
      by_cases h1 : r ≤ 0
      · simp [matchLoop, h1]
      · by_cases h2 : lq ≤ r
        · simp [matchLoop, h1, h2, ih (r - lq)]
          ring
        · simp [matchLoop, h1, h2]

theorem matchLoop_remaining_nonneg (e : EventType) (f : ℚ → ℚ → ℚ)
    (c : String) (p : ℚ) (r : ℚ) (q : List Lot) (hr : 0 ≤ r) :
    0 ≤ (matchLoop e f c p r q).remaining := by
  induction q generalizing r with
  | nil => simpa [matchLoop] using hr
  | cons lot rest ih =>
      obtain ⟨lp, lq⟩ := lot
      by_cases h1 : r ≤ 0
      · simpa [matchLoop, h1] using hr
      · by_cases h2 : lq ≤ r
        · simpa [matchLoop, h1, h2] using ih (r - lq) (by linarith)
        · simp [matchLoop, h1, h2]

theorem matchLoop_queue_nil_of_pos (e : EventType) (f : ℚ → ℚ → ℚ)
    (c : String) (p : ℚ) (r : ℚ) (q : List Lot)
    (h : 0 < (matchLoop e f c p r q).remaining) :
    (matchLoop e f c p r q).queue = [] := by
  induction q generalizing r with
  | nil => simp [matchLoop]
  | cons lot rest ih =>
      obtain ⟨lp, lq⟩ := lot
      by_cases h1 : r ≤ 0
      · simp [matchLoop, h1] at h
        linarith
      · by_cases h2 : lq ≤ r
        · simp only [matchLoop, if_neg h1, if_pos h2] at h ⊢
          exact ih (r - lq) h
        · simp [matchLoop, h1, h2] at h

theorem matchLoop_queue_pos (e : EventType) (f : ℚ → ℚ → ℚ)
    (c : String) (p : ℚ) (r : ℚ) (q : List Lot)
    (hq : ∀ l ∈ q, 0 < l.2) :
    ∀ l ∈ (matchLoop e f c p r q).queue, 0 < l.2 := by
  induction q generalizing r with
  | nil => simp [matchLoop]
  | cons lot rest ih =>
      obtain ⟨lp, lq⟩ := lot
      by_cases h1 : r ≤ 0
      · simpa [matchLoop, h1] using hq
      · by_cases h2 : lq ≤ r
        · simp only [matchLoop, if_neg h1, if_pos h2]
          exact ih (r - lq) (fun l hl => hq l (List.mem_cons_of_mem _ hl))
        · intro l hl
          simp only [matchLoop, if_neg h1, if_neg h2, List.mem_cons] at hl
          rcases hl with h | h
          · subst h
            have : r < lq := lt_of_not_le h2
            simp only []
            linarith
          · exact hq l (List.mem_cons_of_mem _ h)

theorem matchLoop_pnl_sum (e : EventType) (f : ℚ → ℚ → ℚ)
    (c : String) (p : ℚ) (r : ℚ) (q : List Lot) :
    (matchLoop e f c p r q).pnl =
      ((matchLoop e f c p r q).events.map Event.pnl).sum := by
  induction q generalizing r with
  | nil => simp [matchLoop]
  | cons lot rest ih =>
      obtain ⟨lp, lq⟩ := lot
      by_cases h1 : r ≤ 0
      · simp [matchLoop, h1]
      · by_cases h2 : lq ≤ r
        · simp [matchLoop, h1, h2, ih (r - lq)]
        · simp [matchLoop, h1, h2]

theorem matchLoop_events_type (e : EventType) (f : ℚ → ℚ → ℚ)
    (c : String) (p : ℚ) (r : ℚ) (q : List Lot) :
    ∀ ev ∈ (matchLoop e f c p r q).events, ev.type = e := by
  induction q generalizing r with
  | nil => simp [matchLoop]
  | cons lot rest ih =>
      obtain ⟨lp, lq⟩ := lot
      by_cases h1 : r ≤ 0
      · simp [matchLoop, h1]
      · by_cases h2 : lq ≤ r
        · intro ev hev
          simp only [matchLoop, if_neg h1, if_pos h2, List.mem_cons] at hev
          rcases hev with h | h
          · subst h
            rfl
          · exact ih (r - lq) ev h
        · intro ev hev
          simp only [matchLoop, if_neg h1, if_neg h2, List.mem_cons] at hev
          rcases hev with h | h
          · subst h
            rfl
          · simp at h

theorem matchLoop_zero (e : EventType) (f : ℚ → ℚ → ℚ)
    (c : String) (p : ℚ) (q : List Lot) :
    matchLoop e f c p 0 q = ⟨0, q, 0, []⟩ := by
  cases q with
  | nil => simp [matchLoop]
  | cons lot rest =>
      obtain ⟨lp, lq⟩ := lot
      simp [matchLoop]

theorem matchLoop_drain (e : EventType) (f : ℚ → ℚ → ℚ)
    (c : String) (p : ℚ) (r : ℚ) (q : List Lot)
    (hq : ∀ l ∈ q, 0 < l.2) (hr : lotsTotal q < r) :
    (matchLoop e f c p r q).queue = [] ∧
      (matchLoop e f c p r q).remaining = r - lotsTotal q := by
  induction q generalizing r with
  | nil => simp [matchLoop, lotsTotal]
  | cons lot rest ih =>
      obtain ⟨lp, lq⟩ := lot
      have hrest : 0 ≤ lotsTotal rest := by
        refine List.sum_nonneg ?_
        intro x hx
        obtain ⟨l, hl, hlx⟩ := List.mem_map.mp hx
        have := hq l (List.mem_cons_of_mem _ hl)
        exact hlx ▸ le_of_lt this
      have hlq : 0 < lq := hq (lp, lq) (List.mem_cons_self _ _)
      have htot : lotsTotal ((lp, lq) :: rest) = lq + lotsTotal rest := by
        simp [lotsTotal]
      have h1 : ¬ r ≤ 0 := by
        rw [htot] at hr
        push_neg
        linarith
      have h2 : lq ≤ r := by
        rw [htot] at hr
        linarith
      have ihr := ih (r - lq) (fun l hl => hq l (List.mem_cons_of_mem _ hl))
        (by rw [htot] at hr; linarith)
      simp only [matchLoop, if_neg h1, if_pos h2]
      refine ⟨ihr.1, ?_⟩
      rw [ihr.2, htot]
      ring

/-! Corollaries of the loop lemmas for the two instantiated loops. -/

theorem coverLoop_queue_nil_of_pos (c : String) (p r : ℚ) (q : List Lot)
    (h : 0 < (coverLoop c p r q).remaining) : (coverLoop c p r q).queue = [] :=
  matchLoop_queue_nil_of_pos _ _ _ _ _ _ h

theorem sellLoop_queue_nil_of_pos (c : String) (p r : ℚ) (q : List Lot)
    (h : 0 < (sellLoop c p r q).remaining) : (sellLoop c p r q).queue = [] :=
  matchLoop_queue_nil_of_pos _ _ _ _ _ _ h

theorem coverLoop_queue_pos (c : String) (p r : ℚ) (q : List Lot)
    (hq : ∀ l ∈ q, 0 < l.2) : ∀ l ∈ (coverLoop c p r q).queue, 0 < l.2 :=
  matchLoop_queue_pos _ _ _ _ _ _ hq

theorem sellLoop_queue_pos (c : String) (p r : ℚ) (q : List Lot)
    (hq : ∀ l ∈ q, 0 < l.2) : ∀ l ∈ (sellLoop c p r q).queue, 0 < l.2 :=
  matchLoop_queue_pos _ _ _ _ _ _ hq

/-! Per-trade step lemmas. -/

theorem stepTrade_getLots_ne (positions shorts : Book) (t : Trade)
    (c : String) (hc : ¬ t.contract = c) :
    getLots (stepTrade positions shorts t).positions c = getLots positions c ∧
      getLots (stepTrade positions shorts t).shorts c = getLots shorts c := by
  simp only [stepTrade]
  split_ifs <;> simp [getLots_setLots, hc]

theorem stepTrade_oneSided (positions shorts : Book) (t : Trade)
    (h : ∀ c, getLots positions c = [] ∨ getLots shorts c = []) (c : String) :
    getLots (stepTrade positions shorts t).positions c = [] ∨
      getLots (stepTrade positions shorts t).shorts c = [] := by
  by_cases hc : t.contract = c
  case neg =>
    rcases stepTrade_getLots_ne positions shorts t c hc with ⟨e1, e2⟩
    rw [e1, e2]
    exact h c
  case pos =>
    subst hc
    by_cases hpos : 0 < t.quantity
    · simp only [stepTrade, if_pos hpos]
      by_cases hcond : 0 < t.quantity ∧ getLots shorts t.contract ≠ []
      · by_cases h2 : 0 < (coverLoop t.contract t.price t.quantity
            (getLots shorts t.contract)).remaining
        · right
          simp only [if_pos h2, if_pos hcond, getLots_setLots, if_pos rfl]
          exact coverLoop_queue_nil_of_pos _ _ _ _ h2
        · simp only [if_neg h2, if_pos hcond]
          rcases h t.contract with hl | hs0
          · exact Or.inl hl
          · exact absurd hs0 hcond.2
      · have hq0 : getLots shorts t.contract = [] := by
          rcases not_and_or.mp hcond with hx | hx
          · exact absurd hpos hx
          · exact not_not.mp hx
        by_cases h2 : 0 < (coverLoop t.contract t.price t.quantity
            (getLots shorts t.contract)).remaining
        · right
          simp only [if_pos h2, if_neg hcond]
          exact hq0
        · simp only [if_neg h2, if_neg hcond]
          exact h t.contract
    · simp only [stepTrade, if_neg hpos]
      by_cases hcond : 0 < -t.quantity ∧ getLots positions t.contract ≠ []
      · by_cases h2 : 0 < (sellLoop t.contract t.price (-t.quantity)
            (getLots positions t.contract)).remaining
        · left
          simp only [if_pos h2, if_pos hcond, getLots_setLots, if_pos rfl]
          exact sellLoop_queue_nil_of_pos _ _ _ _ h2
        · simp only [if_neg h2, if_pos hcond]
          rcases h t.contract with hl0 | hs
          · exact absurd hl0 hcond.2
          · exact Or.inr hs
      · by_cases h2 : 0 < (sellLoop t.contract t.price (-t.quantity)
            (getLots positions t.contract)).remaining
        · simp only [if_pos h2, if_neg hcond]
          left
          rcases not_and_or.mp hcond with hx | hx
          · exfalso
            have hq0 : -t.quantity = 0 := by
              have h1 : t.quantity ≤ 0 := not_lt.mp hpos
              have h3 : -t.quantity ≤ 0 := not_lt.mp hx
              linarith
            rw [hq0] at h2
            simp [sellLoop, matchLoop_zero] at h2
          · exact not_not.mp hx
        · simp only [if_neg h2, if_neg hcond]
          exact h t.contract

theorem stepTrade_lots_pos (positions shorts : Book) (t : Trade)
    (hp : ∀ c, ∀ l ∈ getLots positions c, 0 < l.2)
    (hs : ∀ c, ∀ l ∈ getLots shorts c, 0 < l.2) (c : String) :
    (∀ l ∈ getLots (stepTrade positions shorts t).positions c, 0 < l.2) ∧
      (∀ l ∈ getLots (stepTrade positions shorts t).shorts c, 0 < l.2) := by
  by_cases hc : t.contract = c
  case neg =>
    rcases stepTrade_getLots_ne positions shorts t c hc with ⟨e1, e2⟩
    rw [e1, e2]
    exact ⟨hp c, hs c⟩
  case pos =>
    subst hc
    by_cases hpos : 0 < t.quantity
    · simp only [stepTrade, if_pos hpos]
      by_cases h2 : 0 < (coverLoop t.contract t.price t.quantity
          (getLots shorts t.contract)).remaining
      · simp only [if_pos h2]
        constructor
        · simp only [getLots_setLots, if_pos rfl]
          intro l hl
          rcases List.mem_append.mp hl with hin | hin
          · exact hp t.contract l hin
          · rcases List.mem_singleton.mp hin with rfl
            exact h2
        · by_cases hcond : 0 < t.quantity ∧ getLots shorts t.contract ≠ []
          · simp only [if_pos hcond, getLots_setLots, if_pos rfl]
            exact coverLoop_queue_pos _ _ _ _ (hs t.contract)
          · simp only [if_neg hcond]
            exact hs t.contract
      · simp only [if_neg h2]
        constructor
        · exact hp t.contract
        · by_cases hcond : 0 < t.quantity ∧ getLots shorts t.contract ≠ []
          · simp only [if_pos hcond, getLots_setLots, if_pos rfl]
            exact coverLoop_queue_pos _ _ _ _ (hs t.contract)
          · simp only [if_neg hcond]
            exact hs t.contract
    · simp only [stepTrade, if_neg hpos]
      by_cases h2 : 0 < (sellLoop t.contract t.price (-t.quantity)
          (getLots positions t.contract)).remaining
      · simp only [if_pos h2]
        constructor
        · by_cases hcond : 0 < -t.quantity ∧ getLots positions t.contract ≠ []
          · simp only [if_pos hcond, getLots_setLots, if_pos rfl]
            exact sellLoop_queue_pos _ _ _ _ (hp t.contract)
          · simp only [if_neg hcond]
            exact hp t.contract
        · simp only [getLots_setLots, if_pos rfl]
          intro l hl
          rcases List.mem_append.mp hl with hin | hin
          · exact hs t.contract l hin
          · rcases List.mem_singleton.mp hin with rfl
            exact h2
      · simp only [if_neg h2]
        constructor
        · by_cases hcond : 0 < -t.quantity ∧ getLots positions t.contract ≠ []
          · simp only [if_pos hcond, getLots_setLots, if_pos rfl]
            exact sellLoop_queue_pos _ _ _ _ (hp t.contract)
          · simp only [if_neg hcond]
            exact hp t.contract
        · exact hs t.contract

/-- Preservation of an invariant along the trade fold. -/
theorem foldl_processTrade_inv (P : EngineState → Prop)
    (step : ∀ st t, P st → P (processTrade st t)) :
    ∀ (l : List Trade) (st : EngineState), P st →
      P (l.foldl processTrade st) := by
  intro l
  induction l with
  | nil => intro st h; exact h
  | cons t l' ih => intro st h; exact ih _ (step st t h)

/-! PnL bookkeeping lemmas for the history log. -/

theorem stepTrade_pnl_events (positions shorts : Book) (t : Trade) :
    (stepTrade positions shorts t).pnl =
      (((stepTrade positions shorts t).events.filter isClose).map
        Event.pnl).sum ∧
      ∀ ev ∈ (stepTrade positions shorts t).events, isOpen ev = true →
        ev.pnl = 0 := by
  by_cases hpos : 0 < t.quantity
  · have htype := matchLoop_events_type EventType.COVER
      (fun sp m => (sp - t.price) * m) t.contract t.price t.quantity
      (getLots shorts t.contract)
    have hpnl := matchLoop_pnl_sum EventType.COVER
      (fun sp m => (sp - t.price) * m) t.contract t.price t.quantity
      (getLots shorts t.contract)
    have hfil : (matchLoop EventType.COVER (fun sp m => (sp - t.price) * m)
        t.contract t.price t.quantity
        (getLots shorts t.contract)).events.filter isClose =
        (matchLoop EventType.COVER (fun sp m => (sp - t.price) * m)
          t.contract t.price t.quantity (getLots shorts t.contract)).events :=
      List.filter_eq_self.mpr fun ev hev => by simp [isClose, htype ev hev]
    simp only [stepTrade, if_pos hpos, coverLoop]
    by_cases h2 : 0 < (matchLoop EventType.COVER
        (fun sp m => (sp - t.price) * m) t.contract t.price t.quantity
        (getLots shorts t.contract)).remaining
    · simp only [if_pos h2]
      constructor
      · rw [List.filter_append, hfil]
        simp [isClose, hpnl]
      · intro ev hev
        rcases List.mem_append.mp hev with hin | hin
        · intro hopen
          exfalso
          simp [isOpen, htype ev hin] at hopen
        · intro hopen
          rcases List.mem_singleton.mp hin with rfl
          rfl
    · simp only [if_neg h2]
      constructor
      · rw [hfil]
        exact hpnl
      · intro ev hev hopen
        exfalso
        simp [isOpen, htype ev hev] at hopen
  · have htype := matchLoop_events_type EventType.SELL
      (fun bp m => (t.price - bp) * m) t.contract t.price (-t.quantity)
      (getLots positions t.contract)
    have hpnl := matchLoop_pnl_sum EventType.SELL
      (fun bp m => (t.price - bp) * m) t.contract t.price (-t.quantity)
      (getLots positions t.contract)
    have hfil : (matchLoop EventType.SELL (fun bp m => (t.price - bp) * m)
        t.contract t.price (-t.quantity)
        (getLots positions t.contract)).events.filter isClose =
        (matchLoop EventType.SELL (fun bp m => (t.price - bp) * m)
          t.contract t.price (-t.quantity)
          (getLots positions t.contract)).events :=
      List.filter_eq_self.mpr fun ev hev => by simp [isClose, htype ev hev]
    simp only [stepTrade, if_neg hpos, sellLoop]
    by_cases h2 : 0 < (matchLoop EventType.SELL
        (fun bp m => (t.price - bp) * m) t.contract t.price (-t.quantity)
        (getLots positions t.contract)).remaining
    · simp only [if_pos h2]
      constructor
      · rw [List.filter_append, hfil]
        simp [isClose, hpnl]
      · intro ev hev
        rcases List.mem_append.mp hev with hin | hin
        · intro hopen
          exfalso
          simp [isOpen, htype ev hin] at hopen
        · intro hopen
          rcases List.mem_singleton.mp hin with rfl
          rfl
    · simp only [if_neg h2]
      constructor
      · rw [hfil]
        exact hpnl
      · intro ev hev hopen
        exfalso
        simp [isOpen, htype ev hev] at hopen

theorem processTrade_pnl_inv (st : EngineState) (t : Trade)
    (h : st.realized = ((st.history.filter isClose).map Event.pnl).sum ∧
      ∀ ev ∈ st.history, isOpen ev = true → ev.pnl = 0) :
    (processTrade st t).realized =
      (((processTrade st t).history.filter isClose).map Event.pnl).sum ∧
      ∀ ev ∈ (processTrade st t).history, isOpen ev = true → ev.pnl = 0 := by
  have hstep := stepTrade_pnl_events st.positions st.shorts t
  simp only [processTrade]
  constructor
  · rw [List.filter_append, List.map_append, List.sum_append, h.1, hstep.1]
  · intro ev hev
    rcases List.mem_append.mp hev with hin | hin
    · exact h.2 ev hin
    · exact hstep.2 ev hin

/-! Lemmas for the valuation pass. -/

theorem priceLookup_mem (eom : List (String × ℚ)) (c : String) (m : ℚ)
    (h : priceLookup eom c = some m) : (c, m) ∈ eom := by
  induction eom with
  | nil => simp [priceLookup] at h
  | cons hd tl ih =>
      obtain ⟨ck, mp⟩ := hd
      by_cases hk : ck = c
      · subst hk
        simp only [priceLookup, eq_self_iff_true, if_true,
          Option.some.injEq] at h
        subst h
        exact List.mem_cons_self _ _
      · simp only [priceLookup, if_neg hk] at h
        exact List.mem_cons_of_mem _ (ih h)

theorem mem_longValue (eom : List (String × ℚ)) (b : Book)
    (row : SnapshotRow) (h : row ∈ (longValue eom b).2) :
    ∃ c p q, row = longRow (priceLookup eom c) c p q := by
  induction b with
  | nil => simp [longValue] at h
  | cons hd tl ih =>
      obtain ⟨c, lots⟩ := hd
      simp only [longValue, List.mem_append] at h
      rcases h with h | h
      · obtain ⟨l, hl, hrow⟩ := List.mem_map.mp h
        exact ⟨c, l.1, l.2, hrow.symm⟩
      · exact ih h

theorem mem_shortValue (eom : List (String × ℚ)) (b : Book)
    (row : SnapshotRow) (h : row ∈ (shortValue eom b).2) :
    ∃ c p q, row = shortRow (priceLookup eom c) c p q := by
  induction b with
  | nil => simp [shortValue] at h
  | cons hd tl ih =>
      obtain ⟨c, lots⟩ := hd
      simp only [shortValue, List.mem_append] at h
      rcases h with h | h
      · obtain ⟨l, hl, hrow⟩ := List.mem_map.mp h
        exact ⟨c, l.1, l.2, hrow.symm⟩
      · exact ih h

theorem longValue_fst (eom : List (String × ℚ)) (b : Book) :
    (longValue eom b).1 =
      ((longValue eom b).2.map SnapshotRow.unrealized).sum := by
  induction b with
  | nil => simp [longValue]
  | cons hd tl ih =>
      obtain ⟨c, lots⟩ := hd
      simp [longValue, ih]

theorem shortValue_fst (eom : List (String × ℚ)) (b : Book) :
    (shortValue eom b).1 =
      ((shortValue eom b).2.map SnapshotRow.unrealized).sum := by
  induction b with
  | nil => simp [shortValue]
  | cons hd tl ih =>
      obtain ⟨c, lots⟩ := hd
      simp [shortValue, ih]

/-! Claim theorems. -/

/-- Claim C1: for every trade with non-zero quantity processed by the matching
engine from any book state, the `Quantity` fields of the trade-history events
emitted for that one trade sum to the absolute value of the trade's
quantity. -/
theorem conservation_per_trade (positions shorts : Book) (t : Trade)
    (hq : t.quantity ≠ 0) :
    ((stepTrade positions shorts t).events.map Event.quantity).sum =
      |t.quantity| := by
  by_cases hpos : 0 < t.quantity
  · have hsum := matchLoop_events_qty_sum EventType.COVER
      (fun sp m => (sp - t.price) * m) t.contract t.price t.quantity
      (getLots shorts t.contract)
    have hnn := matchLoop_remaining_nonneg EventType.COVER
      (fun sp m => (sp - t.price) * m) t.contract t.price t.quantity
      (getLots shorts t.contract) (le_of_lt hpos)
    rw [abs_of_pos hpos]
    simp only [stepTrade, if_pos hpos, coverLoop]
    by_cases h2 : 0 < (matchLoop EventType.COVER
        (fun sp m => (sp - t.price) * m) t.contract t.price t.quantity
        (getLots shorts t.contract)).remaining
    · simp only [if_pos h2, List.map_append, List.sum_append, List.map_cons,
        List.map_nil, List.sum_cons, List.sum_nil, hsum]
      ring
    · have hz : (matchLoop EventType.COVER (fun sp m => (sp - t.price) * m)
          t.contract t.price t.quantity (getLots shorts t.contract)).remaining
          = 0 := le_antisymm (not_lt.mp h2) hnn
      simp only [if_neg h2]
      rw [hsum, hz]
      ring
  · have hneg : t.quantity < 0 := lt_of_le_of_ne (not_lt.mp hpos) hq
    have hsum := matchLoop_events_qty_sum EventType.SELL
      (fun bp m => (t.price - bp) * m) t.contract t.price (-t.quantity)
      (getLots positions t.contract)
    have hnn := matchLoop_remaining_nonneg EventType.SELL
      (fun bp m => (t.price - bp) * m) t.contract t.price (-t.quantity)
      (getLots positions t.contract) (by linarith)
    rw [abs_of_neg hneg]
    simp only [stepTrade, if_neg hpos, sellLoop]
    by_cases h2 : 0 < (matchLoop EventType.SELL
        (fun bp m => (t.price - bp) * m) t.contract t.price (-t.quantity)
        (getLots positions t.contract)).remaining
    · simp only [if_pos h2, List.map_append, List.sum_append, List.map_cons,
        List.map_nil, List.sum_cons, List.sum_nil, hsum]
      ring
    · have hz : (matchLoop EventType.SELL (fun bp m => (t.price - bp) * m)
          t.contract t.price (-t.quantity)
          (getLots positions t.contract)).remaining = 0 :=
        le_antisymm (not_lt.mp h2) hnn
      simp only [if_neg h2]
      rw [hsum, hz]
      ring

/-- Witness for C1 at a concrete input: a buy of 10 from empty books. -/
theorem conservation_per_trade_witness :
    (10 : ℚ) ≠ 0 ∧
      ((stepTrade [] [] ⟨"X", 100, 10⟩).events.map Event.quantity).sum =
        |(10 : ℚ)| :=
  ⟨by norm_num, conservation_per_trade [] [] ⟨"X", 100, 10⟩ (by norm_num)⟩

/-- Claim C4: two buys of 10 at prices `p1` then `p2` followed by a sell of 15
produce exactly two SELL events, matching 10 units against `p1` first and
then 5 units against `p2`, and leave one long lot `(p2, 5)` and no short
lots. -/
theorem fifo_two_buys_one_sell (c : String) (p1 p2 p : ℚ) :
    (processTrades [⟨c, p1, 10⟩, ⟨c, p2, 10⟩, ⟨c, p, -15⟩]).history =
      [⟨EventType.BUY, c, p1, 10, 0⟩, ⟨EventType.BUY, c, p2, 10, 0⟩,
       ⟨EventType.SELL, c, p, 10, (p - p1) * 10⟩,
       ⟨EventType.SELL, c, p, 5, (p - p2) * 5⟩] ∧
    getLots (processTrades [⟨c, p1, 10⟩, ⟨c, p2, 10⟩, ⟨c, p, -15⟩]).positions
      c = [(p2, 5)] ∧
    getLots (processTrades [⟨c, p1, 10⟩, ⟨c, p2, 10⟩, ⟨c, p, -15⟩]).shorts
      c = [] := by
  norm_num [processTrades, processTrade, stepTrade, coverLoop, sellLoop,
    matchLoop, getLots, setLots, initState]

/-- Claim C6, code behaviour at the claim's failing input: a trade whose quantity
is exactly 0 is routed to the sell branch, matches nothing, emits no event,
raises no error, and leaves the engine state unchanged — the run silently
continues with no record of the skip. -/
theorem zero_quantity_trade_is_silent_noop (st : EngineState) (c : String)
    (p : ℚ) :
    processTrade st ⟨c, p, 0⟩ = st := by
  obtain ⟨pos, sh, rz, hist⟩ := st
  simp only [processTrade, stepTrade, sellLoop, neg_zero, matchLoop_zero]
  norm_num

/-- Claim C9: the spec scenario `[(X, 100, +10), (X, 105, -4), (X, 98, -10)]`:
after trade 2 one long lot `(100, 6)` and realized PnL 20; trade 3
contributes -12 and flips to a short lot `(98, 4)`; total realized PnL 8;
marking at 90 yields unrealized PnL 32. -/
theorem scenario_x :
    (processTrades (demoTrades.take 2)).realized = 20 ∧
    getLots (processTrades (demoTrades.take 2)).positions "X" = [(100, 6)] ∧
    (processTrades demoTrades).realized = 8 ∧
    (processTrades demoTrades).realized -
      (processTrades (demoTrades.take 2)).realized = -12 ∧
    (processTrades demoTrades).positions = [("X", [])] ∧
    (processTrades demoTrades).shorts = [("X", [(98, 4)])] ∧
    (valuation (processTrades demoTrades).positions
      (processTrades demoTrades).shorts [("X", 90)]).1 = 32 := by
  norm_num [processTrades, processTrade, stepTrade, coverLoop, sellLoop,
    matchLoop, getLots, setLots, initState, valuation, longValue, shortValue,
    longRow, shortRow, priceLookup, truthyPrice, demoTrades]

/-- Claim C2: after each fully processed trade (every prefix of the input stream),
each contract has at most one non-empty lot queue: unmatched long and short
inventory never coexist. -/
theorem at_most_one_side (ts : List Trade) (n : ℕ) (c : String) :
    getLots (processTrades (ts.take n)).positions c = [] ∨
      getLots (processTrades (ts.take n)).shorts c = [] := by
  have main := foldl_processTrade_inv
    (fun st => ∀ c', getLots st.positions c' = [] ∨ getLots st.shorts c' = [])
    (fun st t h c' => stepTrade_oneSided st.positions st.shorts t h c')
    (ts.take n) initState (fun _ => Or.inl rfl)
  exact main c

/-- Claim C3: after each fully processed trade, every lot stored in any long or
short queue has strictly positive quantity. -/
theorem lots_positive (ts : List Trade) (n : ℕ) (c : String) :
    ((getLots (processTrades (ts.take n)).positions c).all
        fun l => decide (0 < l.2)) = true ∧
      ((getLots (processTrades (ts.take n)).shorts c).all
        fun l => decide (0 < l.2)) = true := by
  have main := foldl_processTrade_inv
    (fun st => (∀ c', ∀ l ∈ getLots st.positions c', 0 < l.2) ∧
               (∀ c', ∀ l ∈ getLots st.shorts c', 0 < l.2))
    (fun st t h =>
      ⟨fun c' => (stepTrade_lots_pos st.positions st.shorts t h.1 h.2 c').1,
       fun c' => (stepTrade_lots_pos st.positions st.shorts t h.1 h.2 c').2⟩)
    (ts.take n) initState
    ⟨fun c' l hl => by simp [getLots] at hl,
     fun c' l hl => by simp [getLots] at hl⟩
  constructor
  · rw [List.all_eq_true]
    intro l hl
    simpa using main.1 c l hl
  · rw [List.all_eq_true]
    intro l hl
    simpa using main.2 c l hl

/-- Claim C5: a single sell against a book holding only long lots (all of positive
quantity), whose absolute quantity strictly exceeds the open long total,
flips the position: afterwards the contract has no long lots and exactly one
short lot at the sell price for the excess, and the last event emitted for
the trade is a SHORT event for the excess with PnL 0. -/
theorem sell_flip_excess (positions shorts : Book) (c : String) (p q : ℚ)
    (hshort : getLots shorts c = [])
    (hlots : ∀ l ∈ getLots positions c, 0 < l.2)
    (hq : q < 0)
    (hexcess : lotsTotal (getLots positions c) < -q) :
    getLots (stepTrade positions shorts ⟨c, p, q⟩).positions c = [] ∧
      getLots (stepTrade positions shorts ⟨c, p, q⟩).shorts c =
        [(p, -q - lotsTotal (getLots positions c))] ∧
      (stepTrade positions shorts ⟨c, p, q⟩).events.getLast? =
        some ⟨EventType.SHORT, c, p,
          -q - lotsTotal (getLots positions c), 0⟩ := by
  have hpos : ¬ 0 < q := not_lt.mpr (le_of_lt hq)
  have hdrain := matchLoop_drain EventType.SELL (fun bp m => (p - bp) * m)
    c p (-q) (getLots positions c) hlots hexcess
  simp only [stepTrade, if_neg hpos, sellLoop]
  have h2 : 0 < (matchLoop EventType.SELL (fun bp m => (p - bp) * m) c p (-q)
      (getLots positions c)).remaining := by
    rw [hdrain.2]
    linarith
  simp only [if_pos h2]
  refine ⟨?_, ?_, ?_⟩
  · by_cases hcond : 0 < -q ∧ getLots positions c ≠ []
    · simp only [if_pos hcond, getLots_setLots, if_pos rfl]
      exact hdrain.1
    · simp only [if_neg hcond]
      rcases not_and_or.mp hcond with hx | hx
      · exact absurd (by linarith : (0 : ℚ) < -q) hx
      · exact not_not.mp hx
  · simp only [getLots_setLots, eq_self_iff_true, if_true, hshort,
      List.nil_append, hdrain.2]
  · rw [List.getLast?_concat, hdrain.2]

/-- Witness for C5: a book with one long lot `(100, 6)` of contract `X`,
hit by a sell of 10 at 98, leaves exactly the short lot `(98, 4)`. -/
theorem sell_flip_excess_witness :
    getLots ([] : Book) "X" = [] ∧ (-10 : ℚ) < 0 ∧
      lotsTotal (getLots [("X", [(100, 6)])] "X") < -(-10 : ℚ) ∧
      getLots (stepTrade [("X", [(100, 6)])] [] ⟨"X", 98, -10⟩).shorts "X" =
        [(98, 4)] := by
  refine ⟨rfl, by norm_num, by norm_num [getLots, lotsTotal], ?_⟩
  have h := (sell_flip_excess [("X", [(100, 6)])] [] "X" 98 (-10) rfl
    (by norm_num [getLots]) (by norm_num)
    (by norm_num [getLots, lotsTotal])).2.1
  norm_num [getLots, lotsTotal] at h
  exact h

/-- Claim C7: for every trade sequence, the realized-PnL total equals the sum of
the PnL fields of the SELL/COVER history events, and every BUY/SHORT history
event carries PnL exactly 0. -/
theorem realized_eq_close_pnl_sum (ts : List Trade) :
    (processTrades ts).realized =
      (((processTrades ts).history.filter isClose).map Event.pnl).sum ∧
      ((processTrades ts).history.filter isOpen).all
        (fun e => decide (e.pnl = 0)) = true := by
  have main := foldl_processTrade_inv
    (fun st => st.realized =
        ((st.history.filter isClose).map Event.pnl).sum ∧
      ∀ ev ∈ st.history, isOpen ev = true → ev.pnl = 0)
    (fun st t h => processTrade_pnl_inv st t h)
    ts initState ⟨rfl, fun ev hev => by simp [initState] at hev⟩
  refine ⟨main.1, ?_⟩
  rw [List.all_eq_true]
  intro ev hev
  rcases List.mem_filter.mp hev with ⟨hmem, hopen⟩
  simpa using main.2 ev hmem hopen

/-- Claim C8: in the valuation pass with a mark-price mapping whose prices are
positive (the interface contract of §6), every snapshot row of a marked
contract carries `unrealized = (m - price) * quantity` for a LONG row and
`(price - m) * quantity` for a SHORT row together with the mark price; every
row of an unmarked contract carries `unrealized = 0` and no market value and
no mark price (the unmarked flag); and the returned unrealized-PnL total is
the sum of the rows' unrealized PnL. -/
theorem valuation_rows_spec (positions shorts : Book)
    (eom : List (String × ℚ)) (hpos : ∀ pr ∈ eom, 0 < pr.2) :
    (∀ row ∈ (valuation positions shorts eom).2,
      (∀ m, priceLookup eom row.contract = some m →
        row.unrealized =
          (if row.side = "LONG" then (m - row.price) * row.quantity
            else (row.price - m) * row.quantity) ∧
        row.eomPrice = some m ∧
        row.marketValue = some (m * row.quantity)) ∧
      (priceLookup eom row.contract = none →
        row.unrealized = 0 ∧ row.marketValue = none ∧
        row.eomPrice = none)) ∧
    (valuation positions shorts eom).1 =
      ((valuation positions shorts eom).2.map SnapshotRow.unrealized).sum := by
  constructor
  · intro row hrow
    have hsplit : row ∈ (longValue eom positions).2 ∨
        row ∈ (shortValue eom shorts).2 := by
      simpa [valuation, List.mem_append] using hrow
    rcases hsplit with h | h
    · obtain ⟨c, p, q, rfl⟩ := mem_longValue eom positions row h
      constructor
      · intro m hm
        simp only [longRow] at hm ⊢
        have hm2 : 0 < m := hpos (c, m) (priceLookup_mem _ _ _ hm)
        simp [hm, truthyPrice, ne_of_gt hm2]
      · intro hm
        simp only [longRow] at hm ⊢
        simp [hm, truthyPrice]
    · obtain ⟨c, p, q, rfl⟩ := mem_shortValue eom shorts row h
      constructor
      · intro m hm
        simp only [shortRow] at hm ⊢
        have hm2 : 0 < m := hpos (c, m) (priceLookup_mem _ _ _ hm)
        simp [hm, truthyPrice, ne_of_gt hm2]
      · intro hm
        simp only [shortRow] at hm ⊢
        simp [hm, truthyPrice]
  · simp [valuation, longValue_fst, shortValue_fst]

/-- Witness for C8: one long lot of `X` marked at 110 and one short lot of
`Y` marked at 40. -/
theorem valuation_rows_spec_witness :
    (∀ pr ∈ ([("X", 110), ("Y", 40)] : List (String × ℚ)), 0 < pr.2) ∧
      (valuation [("X", [(100, 2)])] [("Y", [(50, 3)])]
          [("X", 110), ("Y", 40)]).1 =
        ((valuation [("X", [(100, 2)])] [("Y", [(50, 3)])]
            [("X", 110), ("Y", 40)]).2.map SnapshotRow.unrealized).sum := by
  constructor
  · intro pr hpr
    rcases List.mem_cons.mp hpr with rfl | hpr
    · norm_num
    · rcases List.mem_cons.mp hpr with rfl | hpr
      · norm_num
      · simp at hpr
  · exact (valuation_rows_spec [("X", [(100, 2)])] [("Y", [(50, 3)])]
      [("X", 110), ("Y", 40)] (by
        intro pr hpr
        rcases List.mem_cons.mp hpr with rfl | hpr
        · norm_num
        · rcases List.mem_cons.mp hpr with rfl | hpr
          · norm_num
          · simp at hpr)).2

/-- Claim C10: a contract whose mark-price entry is exactly 0 is valued like a
contract absent from the mapping — the Python code branches on the
truthiness of the looked-up price — so each of its snapshot rows has
unrealized PnL 0 and no market value, contributing nothing to the total. -/
theorem zero_mark_treated_as_missing (positions shorts : Book)
    (eom : List (String × ℚ)) (c : String)
    (hzero : priceLookup eom c = some 0) :
    ∀ row ∈ (valuation positions shorts eom).2, row.contract = c →
      row.unrealized = 0 ∧ row.marketValue = none := by
  intro row hrow hc
  have hsplit : row ∈ (longValue eom positions).2 ∨
      row ∈ (shortValue eom shorts).2 := by
    simpa [valuation, List.mem_append] using hrow
  rcases hsplit with h | h
  · obtain ⟨c', p, q, rfl⟩ := mem_longValue eom positions row h
    have hcc : c' = c := by simpa [longRow] using hc
    subst hcc
    simp [longRow, truthyPrice, hzero]
  · obtain ⟨c', p, q, rfl⟩ := mem_shortValue eom shorts row h
    have hcc : c' = c := by simpa [shortRow] using hc
    subst hcc
    simp [shortRow, truthyPrice, hzero]

/-- Witness for C10: a long lot `(100, 2)` of `X` with mark price exactly 0
yields a row with unrealized PnL 0 and no market value. -/
theorem zero_mark_treated_as_missing_witness :
    priceLookup [("X", (0 : ℚ))] "X" = some 0 ∧
      (⟨"LONG", "X", 100, 2, 200, some 0, none, 0⟩ : SnapshotRow).unrealized
        = 0 ∧
      (⟨"LONG", "X", 100, 2, 200, some 0, none, 0⟩ : SnapshotRow).marketValue
        = none := by
  refine ⟨by simp [priceLookup], ?_⟩
  exact zero_mark_treated_as_missing [("X", [(100, 2)])] [] [("X", 0)] "X"
    (by simp [priceLookup])
    ⟨"LONG", "X", 100, 2, 200, some 0, none, 0⟩
    (by norm_num [valuation, longValue, shortValue, longRow, priceLookup,
      truthyPrice])
    rfl

end FifoPnl
